import Mathlib

/-!
Shallow embedding of the Volatility memory-forensics core that the
specification describes, together with theorems settling the spec's claims.

Sources embedded:
  * `branches/Volatility-1.4_beta1/volatility/utils.py` — `load_as` and the
    aggregated `AddrSpaceError`.
  * `trunk/volatility/plugins/overlays/windows/windows.py` — `_LIST_ENTRY`,
    `WinTimeStamp`, `_HANDLE_TABLE`, `_OBJECT_HEADER`, `_MMVAD`,
    `_MMVAD_SHORT`, `_EX_FAST_REF`, `VolatilityIA32ValidAS`.

Machine integers are modelled as `Int`/`Nat` (Python 2 integers are unbounded;
`/` on ints is floor division, hence `Int.fdiv`).  Generators are modelled as
the list of values they yield when fully drained; where the Python loop is not
obviously bounded the model takes an explicit fuel argument, and termination
is expressed as fuel-independence of the result beyond an explicit bound.
-/

namespace Volatility

/-! ## WinTimeStamp (windows.py lines 236-292) -/

/-- Embedding of `WinTimeStamp.windows_to_unix_time`.  Python 2 `/` on
integers is floor division, so the model uses `Int.fdiv`. -/
def windows_to_unix_time (windows_time : Int) : Int :=
  let unix_time : Int :=
    if windows_time = 0 then 0
    else windows_time.fdiv 10000000 - 11644473600
  if unix_time < 0 then 0 else unix_time

/-! ## _EX_FAST_REF (windows.py lines 676-682) -/

/-- Embedding of `_EX_FAST_REF.MAX_FAST_REF`. -/
def MAX_FAST_REF : Int := 7

/-- State of an `_EX_FAST_REF` instance: the value of its `Object` member. -/
structure ExFastRef where
  objectVal : Int

/-- Embedding of `_EX_FAST_REF.dereference_as`: the result of
`obj.Object(theType, self.Object.v() & ~self.MAX_FAST_REF, ..., parent = parent or self)`
is modelled as the triple (type name, offset, parent).  `parentCtx` is the
optional `parent` argument and `selfCtx` stands for `self`. -/
def dereference_as (theType : String) (r : ExFastRef) (selfCtx : Int)
    (parentCtx : Option Int) : String × Int × Int :=
  (theType, Int.land r.objectVal (Int.not MAX_FAST_REF), parentCtx.getD selfCtx)

/-! ## _MMVAD tag dispatch (windows.py lines 568-612) -/

/-- Embedding of `_MMVAD.tag_map`. -/
def tag_map : List (String × String) :=
  [("Vadl", "_MMVAD_LONG"),
   ("VadS", "_MMVAD_SHORT"),
   ("Vad ", "_MMVAD_LONG"),
   ("VadF", "_MMVAD_SHORT"),
   ("Vadm", "_MMVAD_LONG")]

/-- Memory context for `_MMVAD.__new__`: `tagAt o` is the 4-byte string read
at offset `o` (the overlay places the `Tag` member at offset -4, length 4),
and `vmOk` is the truthiness of the `vm` argument. -/
structure MmVadCtx where
  tagAt : Int → String
  vmOk : Bool

/-- Result of `_MMVAD.__new__`: either a typed object at an offset, or a
`NoneObject` carrying a reason string. -/
inductive VadObj where
  | obj (typeName : String) (offset : Int)
  | noneObj (reason : String)
deriving DecidableEq

/-- Embedding of `_MMVAD.__new__`.  The constructor first rejects offsets
below 4 and missing address spaces, then reads the tag at `offset - 4`
(the overlay's `Tag` member), maps it through `tag_map`, and returns a
`NoneObject` for unknown tags.  When the mapped type differs from
`_MMVAD_LONG` the object is re-instantiated at the same offset with the
mapped type, so the outcome is always the mapped type at `offset`. -/
def mmvad_new (c : MmVadCtx) (offset : Int) : VadObj :=
  if offset < 4 then
    VadObj.noneObj "MMVAD probably instantiated from a NULL pointer, there is no tag to read"
  else if c.vmOk = false then
    VadObj.noneObj "Could not find address space for _MMVAD object"
  else
    let tag := c.tagAt (offset - 4)
    match tag_map.lookup tag with
    | none => VadObj.noneObj ("Tag " ++ tag ++ " not known")
    | some t => VadObj.obj t offset

/-! ## _OBJECT_HEADER optional headers (windows.py lines 497-521) -/

/-- Embedding of `_OBJECT_HEADER.optional_headers`. -/
def optional_headers : List (String × String) :=
  [("NameInfo", "_OBJECT_HEADER_NAME_INFO"),
   ("HandleInfo", "_OBJECT_HEADER_HANDLE_INFO"),
   ("QuotaInfo", "_OBJECT_HEADER_QUOTA_INFO")]

/-- Context for `find_optional_headers`: `hasType` is
`self.obj_vm.profile.has_type`, and `offsetVal n` is the decoded value of the
member `n ++ "Offset"` of the object header. -/
structure ObjHeaderCtx where
  hasType : String → Bool
  offsetVal : String → Int

/-- A resolved optional sub-record: either a constructed object of the given
type at an offset, or a `NoneObject` with a reason. -/
inductive SubRecord where
  | present (typeName : String) (offset : Int)
  | absent (reason : String)
deriving DecidableEq

/-- Embedding of `_OBJECT_HEADER.find_optional_headers`: the association list
of attributes installed by `newattr`.  A name is skipped entirely when the
profile lacks the sub-record type; otherwise a zero `...Offset` value gives a
`NoneObject` and a nonzero value gives an object at `obj_offset - header_offset`. -/
def find_optional_headers (c : ObjHeaderCtx) (obj_offset : Int) :
    List (String × SubRecord) :=
  optional_headers.filterMap fun p =>
    if c.hasType p.2 then
      some (p.1,
        if c.offsetVal p.1 ≠ 0 then
          SubRecord.present p.2 (obj_offset - c.offsetVal p.1)
        else
          SubRecord.absent "Header not set")
    else none

/-! ## _LIST_ENTRY.list_of_type (windows.py lines 192-234)

The backing image is modelled by the `Flink`/`Blink` pointer values stored at
each `_LIST_ENTRY` offset and by address validity (`is_valid` of a
dereferenced `_LIST_ENTRY` is validity of its offset in the address space).
`off` is `profile.get_obj_offset(type, member)`, the byte offset of the
embedded link member inside the element type, so the element instantiated
from a link at offset `lst` sits at `lst - off`.  The generator is modelled
as the list of yielded element offsets; `fuel` bounds the unbounded `while 1`
loop. -/

structure ListMem where
  flink : Int → Int
  blink : Int → Int
  valid : Int → Bool

/-- Embedding of the `while 1` loop of `list_of_type`: instantiate the item
at `lst - off`, follow the link member's Flink (or Blink), stop without
yielding when the successor is invalid or already seen, otherwise record the
successor as seen and yield the item. -/
def lot_loop (m : ListMem) (off : Int) (fwd : Bool) :
    Nat → Int → Finset Int → List Int
  | 0, _, _ => []
  | fuel + 1, lst, seen =>
    let item := lst - off
    let nxt := if fwd then m.flink lst else m.blink lst
    if m.valid nxt = false ∨ nxt ∈ seen then []
    else item :: lot_loop m off fwd fuel nxt (insert nxt seen)

/-- Embedding of `_LIST_ENTRY.list_of_type`: nothing for an invalid header,
otherwise start from the header's first neighbour with the seen set seeded
with that neighbour's offset. -/
def list_of_type (m : ListMem) (hdr off : Int) (fuel : Nat) (fwd : Bool) : List Int :=
  if m.valid hdr = false then []
  else
    let first := if fwd then m.flink hdr else m.blink hdr
    lot_loop m off fwd fuel first {first}

/-! ## _HANDLE_TABLE (windows.py lines 399-489)

The image behind a handle table walk is modelled by: the two profile sizes
(`get_obj_size("address")` and `get_obj_size("_HANDLE_TABLE_ENTRY")`), address
validity (truthiness of the `Array` object at a page offset and
`entry.is_valid()`, both validity of the offset in the address space), the
pointer value stored at an offset (`addrAt`, the value of an `address` array
entry), and `itemOk`, which models the leaf-entry filter performed through
the external `obj` module (`get_item` returning a real object and the
`TypeIndex != 0` / `Type.Name` test).  The generator is modelled as the list
of handle values of the yielded items. -/

structure HTMem where
  addrSize : Nat
  entSize : Nat
  valid : Nat → Bool
  addrAt : Nat → Nat
  itemOk : Nat → Bool

/-- Embedding of the level-0 `for entry in table` loop of
`_make_handle_array`: `rem` entries remain, the next one is entry `i` at
`pageOff + i * entSize`; the first invalid entry breaks the loop; a valid
entry contributes `(entry.obj_offset - offset) / (handle_entry_size /
handle_multiplier) + depth * count * handle_multiplier` when its resolved
item passes the filter (`continue` otherwise). -/
def leafLoop (m : HTMem) (pageOff depth count : Nat) : Nat → Nat → List Nat
  | 0, _ => []
  | rem + 1, i =>
    if m.valid (pageOff + i * m.entSize) = false then []
    else
      if m.itemOk (pageOff + i * m.entSize) then
        ((pageOff + i * m.entSize - pageOff) / (m.entSize / 4) + depth * count * 4)
          :: leafLoop m pageOff depth count rem (i + 1)
      else leafLoop m pageOff depth count rem (i + 1)

/-- Embedding of the level > 0 `for entry in table` loop of
`_make_handle_array`: the first invalid pointer entry breaks the loop; a
valid entry recurses into the pointed-to page at the current depth, and
`depth += 1` after each entry. -/
def nodeLoop (m : HTMem) (recur : Nat → Nat → List Nat) (pageOff : Nat) :
    Nat → Nat → Nat → List Nat
  | 0, _, _ => []
  | rem + 1, i, depth =>
    if m.valid (pageOff + i * m.addrSize) = false then []
    else
      recur (m.addrAt (pageOff + i * m.addrSize)) depth
        ++ nodeLoop m recur pageOff rem (i + 1) (depth + 1)

/-- Embedding of `_HANDLE_TABLE._make_handle_array`: at level 0 the page is
an array of `0x1000 / entSize` handle-table entries, at level > 0 an array of
`0x1000 / addrSize` pointers recursed into at level - 1; an invalid page
(`if table:` false) contributes nothing. -/
def make_handle_array (m : HTMem) : Nat → Nat → Nat → List Nat
  | 0, offset, depth =>
    if m.valid offset then
      leafLoop m offset depth (0x1000 / m.entSize) (0x1000 / m.entSize) 0
    else []
  | level + 1, offset, depth =>
    if m.valid offset then
      nodeLoop m (fun o d => make_handle_array m level o d) offset
        (0x1000 / m.addrSize) 0 depth
    else []

/-- Embedding of `_HANDLE_TABLE.handles`: the level count is the low 3 bits
of `TableCode` (`& LEVEL_MASK` with mask 7) and the table base is `TableCode`
with those bits cleared (`& ~LEVEL_MASK`; on a nonnegative int this is
`Nat.ldiff · 7`). -/
def handles (m : HTMem) (tableCode : Nat) : List Nat :=
  make_handle_array m (Nat.land tableCode 7) (Nat.ldiff tableCode 7) 0

/-! ## _MMVAD_SHORT.traverse (windows.py lines 614-637)

A VAD tree image is a finite association list from node offsets to their
`LeftChild`/`RightChild` pointer values; an offset absent from the list is a
node whose construction fails (NULL pointer, unknown tag or invalid address),
whose `traverse` yields nothing.

The Python generator mutates one shared `visited` set: every yielded node is
added by its *ancestors'* `for` loops (`visited.add(c.obj_offset)`) before
the generator resumes, so inside any non-top-level instance the node's own
offset is in `visited` from the moment it is yielded.  The only yield that no
ancestor loop observes is the top-level instance's `yield self`, whose offset
is therefore never added.  `travAux` models a non-top-level instance
(inserting the node's offset at its yield) and `traverse` models the
top-level call (no insertion for the root's own yield); both return the
yielded offsets in order, with `travAux` also returning the final visited
set, threaded left-to-right.  `fuel` bounds the recursion depth. -/

structure VadNode where
  left : Int
  right : Int

structure VadMem where
  nodes : List (Int × VadNode)

/-- Constructible VAD node at an offset, if any. -/
def findNode : List (Int × VadNode) → Int → Option VadNode
  | [], _ => none
  | p :: rest, off => if p.1 = off then some p.2 else findNode rest off

/-- Offsets at which a VAD node can be constructed. -/
def vadDom (m : VadMem) : Finset Int :=
  (m.nodes.map Prod.fst).toFinset

/-- Embedding of a non-top-level `_MMVAD_SHORT.traverse` instance (see the
section comment): check the visited set, yield the node (immediately added to
the visited set by the ancestor loops), then recurse into the left child and
then the right child, threading the visited set. -/
def travAux (m : VadMem) : Nat → Int → Finset Int → List Int × Finset Int
  | 0, _, vis => ([], vis)
  | fuel + 1, off, vis =>
    match findNode m.nodes off with
    | none => ([], vis)
    | some nd =>
      if off ∈ vis then ([], vis)
      else
        let p := travAux m fuel nd.left (insert off vis)
        let q := travAux m fuel nd.right p.2
        (off :: (p.1 ++ q.1), q.2)

/-- Embedding of the top-level `traverse(visited = None)` call, fully
drained: the fresh visited set is empty, the root is yielded without any
ancestor loop adding its offset, and the two child recursions share the one
visited set. -/
def traverse (m : VadMem) (fuel : Nat) (root : Int) : List Int :=
  match findNode m.nodes root with
  | none => []
  | some nd =>
    let p := travAux m fuel nd.left ∅
    let q := travAux m fuel nd.right p.2
    root :: (p.1 ++ q.1)

/-! ## VolatilityIA32ValidAS (windows.py lines 725-755) -/

/-- Candidate IA32 address space under validation.  `vtop` models
`self.obj_vm.vtop`: `Except.error ()` is a raised `ASAssertionError`,
`Except.ok none` is a `None` translation result.  `pdpte0` models
`self.obj_vm.get_pdpte(0)` with the same error convention. -/
structure IA32VM where
  pae : Bool
  dtb : Int
  pdpte0 : Except Unit Int
  vtop : Int → Except Unit (Option Int)

/-- Page-directory-entry base virtual address chosen in
`generate_suggestions`: 0xc0600000 under PAE, else 0xc0300000. -/
def pdeBase (vm : IA32VM) : Int :=
  if vm.pae then 0xc0600000 else 0xc0300000

/-- Page-directory physical base: `get_pdpte(0) & 0xffffffffff000` under PAE,
else the DTB. -/
def pdTarget (vm : IA32VM) : Except Unit Int :=
  if vm.pae then vm.pdpte0.map (fun v => Int.land v 0xffffffffff000)
  else Except.ok vm.dtb

/-- First (self-referential, "Moyix") consistency check of
`generate_suggestions`, with `ASAssertionError` caught and treated as a
failed check: `self.obj_vm.vtop(pde_base) == pd`.  A `None` translation
compares unequal to the integer `pd`. -/
def moyixCheck (vm : IA32VM) : Bool :=
  match pdTarget vm, vm.vtop (pdeBase vm) with
  | Except.ok pd, Except.ok v => decide (v = some pd)
  | _, _ => false

/-- Embedding of `VolatilityIA32ValidAS.generate_suggestions`, drained to the
list of yielded booleans (`raise StopIteration` ends the generator).  Only the
first check catches `ASAssertionError`; a translation fault in the shared-page
check propagates as `Except.error`. -/
def generate_suggestions (vm : IA32VM) : Except Unit (List Bool) :=
  if moyixCheck vm then Except.ok [true]
  else
    match vm.vtop 0xffdf0000, vm.vtop 0x7ffe0000 with
    | Except.error e, _ => Except.error e
    | _, Except.error e => Except.error e
    | Except.ok a, Except.ok b =>
      if a = b then
        if a ≠ none then Except.ok [true] else Except.ok [false]
      else Except.ok [false]

/-! ## load_as voting (utils.py lines 8-50)

An address-space implementation is modelled by its registry name and a
constructor that, given the current base (`None` initially), either succeeds
with a new layer or fails with an `AssertionError` reason string.  `α` is the
type of constructed layers.  Non-assertion faults propagate out of `load_as`
in the source and are outside this model. -/

structure ASClass (α : Type) where
  name : String
  construct : Option α → Except String α

/-- One voting round of `load_as`: iterate the catalogue in order, return the
first successfully constructed layer (the `break`), collecting an
(implementation name, reason) pair for every rejection seen before that. -/
def tryRound {α : Type} : List (ASClass α) → Option α → Option α × List (String × String)
  | [], _ => (none, [])
  | c :: rest, base =>
    match c.construct base with
    | Except.ok a => (some a, [])
    | Except.error e =>
      let r := tryRound rest base
      (r.1, (c.name, e) :: r.2)

/-- Embedding of the `while 1` loop of `load_as`: `base` is `base_as`, `acc`
is `error.reasons` accumulated so far, and `fuel` bounds the number of rounds
(the Python loop has no bound; `none` models fuel exhaustion).  A round with
no acceptance breaks the loop; then a still-`None` `base_as` raises the
aggregated `AddrSpaceError` (modelled as `Except.error` carrying
`error.reasons`), otherwise `base_as` is returned. -/
def load_as_rounds {α : Type} (cat : List (ASClass α)) :
    Nat → Option α → List (String × String) →
      Option (Except (List (String × String)) α)
  | 0, _, _ => none
  | fuel + 1, base, acc =>
    match (tryRound cat base).1, base with
    | some a, _ => load_as_rounds cat fuel (some a) (acc ++ (tryRound cat base).2)
    | none, none => some (Except.error (acc ++ (tryRound cat base).2))
    | none, some a => some (Except.ok a)

/-- Embedding of `load_as`: start with no base and an empty reason list. -/
def load_as {α : Type} (cat : List (ASClass α)) (fuel : Nat) :
    Option (Except (List (String × String)) α) :=
  load_as_rounds cat fuel none []

/-! ## Theorems for claims C6, C8, C9, C10 -/

lemma ldiff_seven (k t : Nat) (ht : t < 8) : Nat.ldiff (8 * k + t) 7 = 8 * k := by
  apply Nat.eq_of_testBit_eq
  intro i
  rw [Nat.testBit_ldiff]
  by_cases hi : i < 3
  · have h7 : Nat.testBit 7 i = true := by
      rw [show (7 : Nat) = 2 ^ 3 - 1 by norm_num, Nat.testBit_two_pow_sub_one]
      simpa using hi
    have hk : Nat.testBit (8 * k) i = false := by
      rw [Nat.testBit_to_div_mod]
      simp only [decide_eq_false_iff_not]
      interval_cases i <;> omega
    rw [h7, hk]
    simp
  · have h7 : Nat.testBit 7 i = false := by
      rw [show (7 : Nat) = 2 ^ 3 - 1 by norm_num, Nat.testBit_two_pow_sub_one]
      simpa using hi
    have heq : Nat.testBit (8 * k + t) i = Nat.testBit (8 * k) i := by
      rw [Nat.testBit_to_div_mod, Nat.testBit_to_div_mod]
      have h2 : (2 : Nat) ^ i = 8 * 2 ^ (i - 3) := by
        rw [show (8 : Nat) = 2 ^ 3 by norm_num, ← pow_add]
        congr 1
        omega
      rw [h2, ← Nat.div_div_eq_div_mul, ← Nat.div_div_eq_div_mul]
      have h4 : (8 * k + t) / 8 = k := by omega
      have h5 : 8 * k / 8 = k := by omega
      rw [h4, h5]
    rw [h7, heq]
    simp

lemma land_not_seven (k t : Nat) (ht : t < 8) :
    Int.land ((8 * k + t : Nat) : Int) (Int.not MAX_FAST_REF) = ((8 * k : Nat) : Int) := by
  have h1 : Int.not MAX_FAST_REF = Int.negSucc 7 := rfl
  rw [h1]
  have h2 : Int.land ((8 * k + t : Nat) : Int) (Int.negSucc 7)
      = ((Nat.ldiff (8 * k + t) 7 : Nat) : Int) := rfl
  rw [h2, ldiff_seven k t ht]

/-- C9: for every machine word `pointer + tag` where the pointer has zero low
3 bits and the tag lies in [0,7], `_EX_FAST_REF.dereference_as` masks off the
low 3 bits and constructs the target object at offset exactly `pointer`,
regardless of the tag, with the requested type and with the optional parent
context overriding `self` when supplied. -/
theorem dereference_as_masks_low_bits (theType : String) (ptr tag : Nat)
    (selfCtx : Int) (parentCtx : Option Int)
    (hp : ptr % 8 = 0) (ht : tag ≤ 7) :
    dereference_as theType ⟨((ptr + tag : Nat) : Int)⟩ selfCtx parentCtx
      = (theType, ((ptr : Nat) : Int), parentCtx.getD selfCtx) := by
  obtain ⟨k, rfl⟩ : ∃ k, ptr = 8 * k := ⟨ptr / 8, by omega⟩
  unfold dereference_as
  rw [land_not_seven k tag (by omega)]

/-- Witness for C9 at a concrete input: word 0x1005 = 0x1000 | 5. -/
theorem dereference_as_masks_low_bits_witness :
    dereference_as "_TOKEN" ⟨(4101 : Int)⟩ 77 none = ("_TOKEN", (4096 : Int), 77) := by
  have h := dereference_as_masks_low_bits "_TOKEN" 4096 5 77 none (by decide) (by decide)
  norm_num at h
  exact h

lemma tag_map_closed (k t : String) (h : tag_map.lookup k = some t) :
    t = "_MMVAD_SHORT" ∨ t = "_MMVAD_LONG" := by
  simp only [tag_map, List.lookup] at h
  repeat' split at h
  all_goals simp_all

/-- C6: constructing an `_MMVAD` at an offset with a usable address space
reads the 4-byte tag at `offset - 4` (immediately before the nominal
structure start) and maps it through the closed `tag_map` to `_MMVAD_SHORT`
or `_MMVAD_LONG`; every tag outside the map yields a `NoneObject` carrying a
reason, never a guessed default type. -/
theorem mmvad_new_tag_dispatch (c : MmVadCtx) (offset : Int)
    (h4 : 4 ≤ offset) (hvm : c.vmOk = true) :
    (∀ t, tag_map.lookup (c.tagAt (offset - 4)) = some t →
        mmvad_new c offset = VadObj.obj t offset ∧
          (t = "_MMVAD_SHORT" ∨ t = "_MMVAD_LONG")) ∧
    (tag_map.lookup (c.tagAt (offset - 4)) = none →
        mmvad_new c offset = VadObj.noneObj
          ("Tag " ++ c.tagAt (offset - 4) ++ " not known")) := by
  constructor
  · intro t hl
    constructor
    · unfold mmvad_new
      rw [if_neg (by omega), hvm]
      simp [hl]
    · exact tag_map_closed _ _ hl
  · intro hl
    unfold mmvad_new
    rw [if_neg (by omega), hvm]
    simp [hl]

/-- Witness for C6 at a concrete input: a known tag and an unknown tag. -/
theorem mmvad_new_tag_dispatch_witness :
    mmvad_new ⟨fun _ => "VadS", true⟩ 4096 = VadObj.obj "_MMVAD_SHORT" 4096 ∧
    mmvad_new ⟨fun _ => "Xxxx", true⟩ 4096 = VadObj.noneObj "Tag Xxxx not known" := by
  constructor
  · exact ((mmvad_new_tag_dispatch ⟨fun _ => "VadS", true⟩ 4096 (by decide) rfl).1
      "_MMVAD_SHORT" rfl).1
  · exact (mmvad_new_tag_dispatch ⟨fun _ => "Xxxx", true⟩ 4096 (by decide) rfl).2 rfl

/-- C8: with all three optional sub-record types present in the profile,
`find_optional_headers` resolves each of NameInfo, HandleInfo and QuotaInfo
independently: a zero embedded offset yields an absent value and a nonzero
offset yields a sub-record constructed at `obj_offset - sub_offset`; the
outcome for each name is a function of that name's offset value alone. -/
theorem find_optional_headers_independent (c : ObjHeaderCtx) (off : Int)
    (h1 : c.hasType "_OBJECT_HEADER_NAME_INFO" = true)
    (h2 : c.hasType "_OBJECT_HEADER_HANDLE_INFO" = true)
    (h3 : c.hasType "_OBJECT_HEADER_QUOTA_INFO" = true) :
    find_optional_headers c off =
      [("NameInfo",
        if c.offsetVal "NameInfo" = 0 then SubRecord.absent "Header not set"
        else SubRecord.present "_OBJECT_HEADER_NAME_INFO" (off - c.offsetVal "NameInfo")),
       ("HandleInfo",
        if c.offsetVal "HandleInfo" = 0 then SubRecord.absent "Header not set"
        else SubRecord.present "_OBJECT_HEADER_HANDLE_INFO" (off - c.offsetVal "HandleInfo")),
       ("QuotaInfo",
        if c.offsetVal "QuotaInfo" = 0 then SubRecord.absent "Header not set"
        else SubRecord.present "_OBJECT_HEADER_QUOTA_INFO" (off - c.offsetVal "QuotaInfo"))] := by
  simp only [find_optional_headers, optional_headers, List.filterMap, h1, h2, h3, if_true]
  by_cases z1 : c.offsetVal "NameInfo" = 0 <;>
    by_cases z2 : c.offsetVal "HandleInfo" = 0 <;>
      by_cases z3 : c.offsetVal "QuotaInfo" = 0 <;>
        simp [z1, z2, z3]

/-- Witness for C8 at a concrete input: NameInfo absent (zero offset) while
HandleInfo and QuotaInfo are present, showing independence. -/
theorem find_optional_headers_independent_witness :
    find_optional_headers
        ⟨fun _ => true, fun n => if n = "NameInfo" then 0 else 24⟩ 1000 =
      [("NameInfo", SubRecord.absent "Header not set"),
       ("HandleInfo", SubRecord.present "_OBJECT_HEADER_HANDLE_INFO" 976),
       ("QuotaInfo", SubRecord.present "_OBJECT_HEADER_QUOTA_INFO" 976)] := by
  have h := find_optional_headers_independent
    ⟨fun _ => true, fun n => if n = "NameInfo" then 0 else 24⟩ 1000 rfl rfl rfl
  rw [h]
  decide

/-- C10: `windows_to_unix_time` never returns a negative value; a raw value of
0 maps to 0; and every raw 64-bit value whose floor-converted Unix time would
be negative — in particular every positive raw value below
11644473600 * 10^7 — is clamped to 0, indistinguishable from an absent
timestamp. -/
theorem windows_to_unix_time_clamps (w : Int)
    (hlo : -(2 ^ 63) ≤ w) (hhi : w < 2 ^ 63) :
    0 ≤ windows_to_unix_time w ∧
    windows_to_unix_time 0 = 0 ∧
    (w.fdiv 10000000 - 11644473600 < 0 → windows_to_unix_time w = 0) ∧
    (0 < w → w < 11644473600 * 10000000 → windows_to_unix_time w = 0) := by
  refine ⟨?_, by norm_num [windows_to_unix_time], ?_, ?_⟩
  · simp only [windows_to_unix_time]
    split_ifs <;> omega
  · intro hneg
    simp only [windows_to_unix_time]
    split_ifs <;> omega
  · intro hpos hbound
    have hfd : w.fdiv 10000000 = w / 10000000 := Int.fdiv_eq_ediv w (by norm_num)
    have hneg : w.fdiv 10000000 - 11644473600 < 0 := by
      rw [hfd]
      omega
    simp only [windows_to_unix_time]
    split_ifs <;> omega

/-- Witness for C10 at a concrete input: one second past the 1601 epoch. -/
theorem windows_to_unix_time_clamps_witness :
    0 ≤ windows_to_unix_time 10000000 ∧ windows_to_unix_time 10000000 = 0 := by
  have h := windows_to_unix_time_clamps 10000000 (by norm_num) (by norm_num)
  exact ⟨h.1, h.2.2.2 (by norm_num) (by norm_num)⟩

/-! ## Theorems for claims C1, C2 -/

lemma tryRound_none_spec {α : Type} (cat : List (ASClass α)) (base : Option α)
    (h : (tryRound cat base).1 = none) :
    (tryRound cat base).2.length = cat.length ∧
    ∀ i (hi : i < cat.length),
      ∃ e, cat[i].construct base = Except.error e ∧
        (tryRound cat base).2[i]? = some (cat[i].name, e) := by
  induction cat with
  | nil =>
    refine ⟨rfl, ?_⟩
    intro i hi
    simp at hi
  | cons c rest ih =>
    cases hc : c.construct base with
    | ok a => simp [tryRound, hc] at h
    | error e =>
      have h' : (tryRound rest base).1 = none := by
        simpa [tryRound, hc] using h
      obtain ⟨hlen, hidx⟩ := ih h'
      refine ⟨by simp [tryRound, hc, hlen], ?_⟩
      intro i hi
      cases i with
      | zero => exact ⟨e, hc, by simp [tryRound, hc]⟩
      | succ j =>
        obtain ⟨e', he', hg⟩ := hidx j (by simpa using hi)
        exact ⟨e', by simpa using he', by simpa [tryRound, hc] using hg⟩

lemma load_as_rounds_some_base {α : Type} (cat : List (ASClass α)) (fuel : Nat)
    (a : α) (acc : List (String × String)) :
    load_as_rounds cat fuel (some a) acc = none ∨
    ∃ b, load_as_rounds cat fuel (some a) acc = some (Except.ok b) := by
  induction fuel generalizing a acc with
  | zero => exact Or.inl rfl
  | succ f ih =>
    simp only [load_as_rounds]
    cases htr : (tryRound cat (some a)).1 with
    | none => exact Or.inr ⟨a, rfl⟩
    | some b => exact ih b _

/-- C1: whenever `load_as` fails (no layer was ever accepted), it fails with
the aggregated error whose reason list has exactly one (implementation name,
rejection reason) entry, in catalogue order, for every catalogue
implementation — all of which were rejected in the single round that found
nothing — never with only the last rejection reason. -/
theorem load_as_aggregated_error {α : Type} (cat : List (ASClass α)) (fuel : Nat)
    (rs : List (String × String))
    (h : load_as cat fuel = some (Except.error rs)) :
    rs.length = cat.length ∧
    ∀ i (hi : i < cat.length),
      ∃ e, cat[i].construct none = Except.error e ∧
        rs[i]? = some (cat[i].name, e) := by
  cases fuel with
  | zero => simp [load_as, load_as_rounds] at h
  | succ f =>
    unfold load_as at h
    simp only [load_as_rounds] at h
    cases htr : (tryRound cat none).1 with
    | some a =>
      rw [htr] at h
      have h2 : load_as_rounds cat f (some a) ([] ++ (tryRound cat none).2)
          = some (Except.error rs) := h
      rcases load_as_rounds_some_base cat f a ([] ++ (tryRound cat none).2) with hn | ⟨b, hb⟩
      · rw [hn] at h2
        cases h2
      · rw [hb] at h2
        cases h2
    | none =>
      rw [htr] at h
      have h2 : some (Except.error ([] ++ (tryRound cat none).2))
          = some (Except.error rs) := h
      have hrs : rs = (tryRound cat none).2 := by
        simpa using (Option.some.inj h2).symm
      subst hrs
      exact tryRound_none_spec cat none htr

/-- Witness for C1: a two-implementation catalogue in which both reject. -/
def rejectingCat : List (ASClass Nat) :=
  [⟨"FileAddressSpace", fun _ => Except.error "file not found"⟩,
   ⟨"IA32PagedMemory", fun _ => Except.error "no DTB"⟩]

theorem load_as_aggregated_error_witness :
    load_as rejectingCat 1 =
      some (Except.error
        [("FileAddressSpace", "file not found"), ("IA32PagedMemory", "no DTB")]) ∧
    ([("FileAddressSpace", "file not found"), ("IA32PagedMemory", "no DTB")]
        : List (String × String)).length = rejectingCat.length := by
  have h1 : load_as rejectingCat 1 =
      some (Except.error
        [("FileAddressSpace", "file not found"), ("IA32PagedMemory", "no DTB")]) := rfl
  exact ⟨h1, (load_as_aggregated_error rejectingCat 1 _ h1).1⟩

lemma tryRound_first_accept {α : Type} :
    ∀ (cat : List (ASClass α)) (i : Nat) (hi : i < cat.length) (base : Option α) (a : α),
      (cat.get ⟨i, hi⟩).construct base = Except.ok a →
      (∀ j (hj : j < i),
        ∃ e, (cat.get ⟨j, Nat.lt_trans hj hi⟩).construct base = Except.error e) →
      (tryRound cat base).1 = some a := by
  intro cat
  induction cat with
  | nil =>
    intro i hi
    simp at hi
  | cons c rest ih =>
    intro i hi base a hok hrej
    cases i with
    | zero =>
      simp only [List.get] at hok
      simp [tryRound, hok]
    | succ j =>
      obtain ⟨e, he⟩ := hrej 0 (Nat.succ_pos j)
      simp only [List.get] at he
      simp only [tryRound, he]
      apply ih j (by simpa using hi) base a (by simpa using hok)
      intro j' hj'
      obtain ⟨e', he'⟩ := hrej (j' + 1) (by omega)
      exact ⟨e', by simpa using he'⟩

lemma tryRound_all_reject {α : Type} :
    ∀ (cat : List (ASClass α)) (base : Option α),
      (∀ c ∈ cat, ∃ e, c.construct base = Except.error e) →
      (tryRound cat base).1 = none := by
  intro cat
  induction cat with
  | nil => intro base _; rfl
  | cons c rest ih =>
    intro base hrej
    obtain ⟨e, he⟩ := hrej c (by simp)
    simp only [tryRound, he]
    exact ih base fun c' hc' => hrej c' (by simp [hc'])

/-- C2: the voting rounds of `load_as`.  First, when some implementation
accepts, the round's winner is the first acceptor in catalogue order and the
next round restarts from the top of the catalogue with the new base.  Second,
a round in which every implementation rejects terminates the algorithm, and
when a layer was already accepted the accumulated chain is returned (not an
error), even though that final round accepted nothing. -/
theorem load_as_round_semantics {α : Type} (cat : List (ASClass α)) :
    (∀ (base : Option α) (fuel : Nat) (acc : List (String × String)) (a : α),
      (tryRound cat base).1 = some a →
      load_as_rounds cat (fuel + 1) base acc
        = load_as_rounds cat fuel (some a) (acc ++ (tryRound cat base).2)) ∧
    (∀ (i : Nat) (hi : i < cat.length) (base : Option α) (a : α),
      (cat.get ⟨i, hi⟩).construct base = Except.ok a →
      (∀ j (hj : j < i),
        ∃ e, (cat.get ⟨j, Nat.lt_trans hj hi⟩).construct base = Except.error e) →
      (tryRound cat base).1 = some a) ∧
    (∀ (fuel : Nat) (acc : List (String × String)) (a : α),
      (∀ c ∈ cat, ∃ e, c.construct (some a) = Except.error e) →
      load_as_rounds cat (fuel + 1) (some a) acc = some (Except.ok a)) := by
  refine ⟨?_, ?_, ?_⟩
  · intro base fuel acc a h
    simp only [load_as_rounds ]
    rw [h]
  · intro i hi base a hok hrej
    exact tryRound_first_accept cat i hi base a hok hrej
  · intro fuel acc a hrej
    have h := tryRound_all_reject cat (some a) hrej
    simp only [load_as_rounds]
    rw [h]

/-- Witness for C2: a catalogue whose first class always rejects and whose
second accepts exactly once on an empty base. -/
def mixedCat : List (ASClass Nat) :=
  [⟨"CrashDumpAS", fun _ => Except.error "no crash signature"⟩,
   ⟨"FileAS", fun b => match b with
      | none => Except.ok 1
      | some _ => Except.error "base already set"⟩]

theorem load_as_round_semantics_witness :
    (tryRound mixedCat (none : Option Nat)).1 = some 1 ∧
    load_as_rounds mixedCat 1 (some 1) [] = some (Except.ok 1) ∧
    load_as_rounds mixedCat 2 none []
      = load_as_rounds mixedCat 1 (some 1) [("CrashDumpAS", "no crash signature")] := by
  have h := load_as_round_semantics (α := Nat) mixedCat
  have hfirst : (tryRound mixedCat (none : Option Nat)).1 = some 1 := by
    apply h.2.1 1 (by norm_num [mixedCat]) none 1 rfl
    intro j hj
    obtain rfl : j = 0 := by omega
    exact ⟨"no crash signature", rfl⟩
  have hterm : load_as_rounds mixedCat 1 (some 1) [] = some (Except.ok 1) := by
    apply h.2.2 0 [] 1
    intro c hc
    simp only [mixedCat, List.mem_cons, List.mem_singleton] at hc
    rcases hc with rfl | rfl | hc
    · exact ⟨"no crash signature", rfl⟩
    · exact ⟨"base already set", rfl⟩
    · cases hc
  refine ⟨hfirst, hterm, ?_⟩
  have hstep := h.1 none 1 [] 1 hfirst
  simpa using hstep

/-! ## Theorems for claim C3 -/

/-- Concrete image for the C3 counterexample: a valid list header at offset 8
whose Flink chain is 8 → 100 → 200 → 100, i.e. two elements (member offset
0, so element bases 100 and 200) with element 2's next link wired back to
element 1. -/
def cycListMem : ListMem :=
  ⟨fun a => if a = 8 then 100 else if a = 100 then 200 else if a = 200 then 100 else 0,
   fun _ => 0,
   fun a => decide (a = 8 ∨ a = 100 ∨ a = 200)⟩

/-- C3 counterexample: on the two-element list wired into a cycle
(element 2's next link pointing back to element 1), `list_of_type` yields
only element 1; element 2 is never yielded, so the traversal does not yield
each list element exactly once. -/
theorem list_of_type_cycle_misses_element :
    cycListMem.valid 8 = true ∧
    cycListMem.flink 8 = 100 ∧
    cycListMem.flink 100 = 200 ∧
    cycListMem.flink 200 = 100 ∧
    cycListMem.valid 100 = true ∧
    cycListMem.valid 200 = true ∧
    list_of_type cycListMem 8 0 10 true = [100] ∧
    List.count 200 (list_of_type cycListMem 8 0 10 true) = 0 := by
  decide

lemma lot_loop_chain (m : ListMem) (off : Int) :
    ∀ (c : List Int) (a : Int) (seen : Finset Int) (fuel : Nat),
      (a :: c).Nodup →
      List.Chain' (fun x y => m.flink x = y) (a :: c) →
      (∀ x ∈ c, m.valid x = true) →
      (∀ x ∈ c, x ∉ seen) →
      a ∈ seen →
      m.flink ((a :: c).getLast (by simp)) ∈ seen ∪ (a :: c).toFinset →
      (a :: c).length ≤ fuel →
      lot_loop m off true fuel a seen = (a :: c).dropLast.map (fun x => x - off) := by
  intro c
  induction c with
  | nil =>
    intro a seen fuel hnd hch hval hun ha hstop hfuel
    obtain ⟨f, rfl⟩ : ∃ f, fuel = f + 1 := ⟨fuel - 1, by simp at hfuel; omega⟩
    have hin : m.flink a ∈ seen := by
      simp only [List.getLast_singleton, List.toFinset_cons, List.toFinset_nil] at hstop
      rcases Finset.mem_union.mp hstop with h | h
      · exact h
      · simp at h
        rw [h]
        exact ha
    simp [lot_loop, hin]
  | cons b c' ih =>
    intro a seen fuel hnd hch hval hun ha hstop hfuel
    obtain ⟨f, rfl⟩ : ∃ f, fuel = f + 1 := ⟨fuel - 1, by simp at hfuel; omega⟩
    have hab : m.flink a = b := (List.chain'_cons.mp hch).1
    have hbv : m.valid b = true := hval b (by simp)
    have hbs : b ∉ seen := hun b (by simp)
    have hcond : ¬ (m.valid (m.flink a) = false ∨ m.flink a ∈ seen) := by
      rw [hab]
      simp [hbv, hbs]
    have hstep : lot_loop m off true (f + 1) a seen
        = (a - off) :: lot_loop m off true f b (insert b seen) := by
      simp [lot_loop, hab, hbv, hbs]
    rw [hstep]
    have hrec := ih b (insert b seen) f
      (List.Nodup.of_cons hnd)
      (List.chain'_cons.mp hch).2
      (fun x hx => hval x (by simp [hx]))
      (fun x hx => by
        simp only [Finset.mem_insert]
        push_neg
        exact ⟨fun hxb => (List.nodup_cons.mp (List.Nodup.of_cons hnd)).1 (hxb ▸ hx),
          hun x (by simp [hx])⟩)
      (Finset.mem_insert_self b seen)
      (by
        have hg : (b :: c').getLast (by simp) = (a :: b :: c').getLast (by simp) :=
          (List.getLast_cons (by simp)).symm
        rw [← hg] at hstop
        rcases Finset.mem_union.mp hstop with h | h
        · exact Finset.mem_union.mpr (Or.inl (Finset.mem_insert_of_mem h))
        · simp only [List.toFinset_cons, Finset.mem_insert] at h
          rcases h with h | h
          · exact Finset.mem_union.mpr (Or.inl (by rw [h]; exact Finset.mem_insert_of_mem ha))
          · exact Finset.mem_union.mpr (Or.inr (by simpa using h)))
      (by simp at hfuel ⊢; omega)
    rw [hrec]
    rfl

/-- C3 amended: on a list wired into a cycle (the last element's next link
pointing back to some list entry), `list_of_type` terminates and yields, in
list order, every element except the cycle-closing one exactly once; the
element whose next link closes the cycle is itself never yielded. -/
theorem list_of_type_cycle_all_but_last (m : ListMem) (hdr off : Int)
    (ls : List Int) (fuel : Nat)
    (hne : ls ≠ [])
    (hnd : ls.Nodup)
    (hhdr : m.valid hdr = true)
    (hfirst : m.flink hdr = ls.head hne)
    (hchain : List.Chain' (fun a b => m.flink a = b) ls)
    (hvalid : ∀ x ∈ ls, m.valid x = true)
    (hcyc : m.flink (ls.getLast hne) ∈ ls)
    (hfuel : ls.length ≤ fuel) :
    list_of_type m hdr off fuel true = ls.dropLast.map (fun x => x - off) ∧
    ∀ x ∈ ls.dropLast,
      List.count (x - off) (list_of_type m hdr off fuel true) = 1 := by
  obtain ⟨a, c, rfl⟩ : ∃ a c, ls = a :: c := by
    cases ls with
    | nil => exact absurd rfl hne
    | cons a c => exact ⟨a, c, rfl⟩
  have hmain : list_of_type m hdr off fuel true
      = (a :: c).dropLast.map (fun x => x - off) := by
    unfold list_of_type
    rw [if_neg (by simp [hhdr])]
    simp only [if_true]
    have hh : m.flink hdr = a := hfirst
    rw [hh]
    apply lot_loop_chain m off c a {a} fuel hnd hchain
      (fun x hx => hvalid x (by simp [hx]))
      (fun x hx => by
        simp only [Finset.mem_singleton]
        exact fun hxa => (List.nodup_cons.mp hnd).1 (hxa ▸ hx))
      (Finset.mem_singleton_self a)
      (by
        rcases List.mem_cons.mp hcyc with h | h
        · exact Finset.mem_union.mpr (Or.inl (by simp [h]))
        · exact Finset.mem_union.mpr (Or.inr (by simp [h])))
      hfuel
  refine ⟨hmain, ?_⟩
  intro x hx
  rw [hmain]
  have hinj : Function.Injective (fun x : Int => x - off) := by
    intro x y hxy
    simpa using hxy
  apply List.count_eq_one_of_mem
  · exact List.Nodup.map hinj (List.Nodup.sublist (List.dropLast_sublist _) hnd)
  · exact List.mem_map_of_mem _ hx

/-- Concrete image for the C3 amended-claim witness: header at 8, elements
with link entries at 100, 200, 300, and the third element's next link wired
back to the second (K = 2 ≤ N = 3). -/
def cycListMem3 : ListMem :=
  ⟨fun a =>
      if a = 8 then 100
      else if a = 100 then 200
      else if a = 200 then 300
      else if a = 300 then 200
      else 0,
   fun _ => 0,
   fun a => decide (a = 8 ∨ a = 100 ∨ a = 200 ∨ a = 300)⟩

theorem list_of_type_cycle_all_but_last_witness :
    list_of_type cycListMem3 8 4 10 true = [96, 196] := by
  have h := list_of_type_cycle_all_but_last cycListMem3 8 4 [100, 200, 300] 10
    (by decide) (by decide) (by decide) (by decide)
    (by simp [List.chain'_cons, cycListMem3])
    (by decide) (by decide) (by decide)
  rw [h.1]
  decide

/-! ## Theorems for claim C5 -/

lemma land_seven (k t : Nat) (ht : t < 8) : Nat.land (8 * k + t) 7 = t := by
  apply Nat.eq_of_testBit_eq
  intro i
  show ((8 * k + t) &&& 7).testBit i = t.testBit i
  rw [Nat.testBit_land]
  by_cases hi : i < 3
  · have h7 : Nat.testBit 7 i = true := by
      rw [show (7 : Nat) = 2 ^ 3 - 1 by norm_num, Nat.testBit_two_pow_sub_one]
      simpa using hi
    rw [h7, Bool.and_true, Nat.testBit_to_div_mod, Nat.testBit_to_div_mod,
      decide_eq_decide]
    interval_cases i <;> norm_num <;> omega
  · have h7 : Nat.testBit 7 i = false := by
      rw [show (7 : Nat) = 2 ^ 3 - 1 by norm_num, Nat.testBit_two_pow_sub_one]
      simpa using hi
    rw [h7, Bool.and_false]
    have h8 : (8 : Nat) ≤ 2 ^ i := by
      calc (8 : Nat) = 2 ^ 3 := by norm_num
        _ ≤ 2 ^ i := Nat.pow_le_pow_right (by norm_num) (by omega)
    have ht2 : t / 2 ^ i = 0 := Nat.div_eq_of_lt (by omega)
    rw [Nat.testBit_to_div_mod, ht2]
    simp

lemma leafLoop_spec (m : HTMem) (p d count : Nat) (hE : m.entSize = 8) :
    ∀ (rem i : Nat),
      leafLoop m p d count rem i
        = ((List.range' i rem).takeWhile (fun j => m.valid (p + j * 8))).filterMap
            (fun j =>
              if m.itemOk (p + j * 8) then some (4 * j + d * count * 4) else none) := by
  intro rem
  induction rem with
  | zero =>
    intro i
    simp [leafLoop]
  | succ r ih =>
    intro i
    rw [List.range'_succ]
    cases hv : m.valid (p + i * 8) with
    | false =>
      have hstep : leafLoop m p d count (r + 1) i = [] := by
        show (if m.valid (p + i * m.entSize) = false then []
          else if m.itemOk (p + i * m.entSize)
            then ((p + i * m.entSize - p) / (m.entSize / 4) + d * count * 4)
              :: leafLoop m p d count r (i + 1)
            else leafLoop m p d count r (i + 1)) = []
        rw [hE, if_pos hv]
      rw [hstep]
      have htw : List.takeWhile (fun j => m.valid (p + j * 8))
          (i :: List.range' (i + 1) r) = [] := by
        simp [List.takeWhile_cons, hv]
      rw [htw]
      simp
    | true =>
      have hval : (p + i * 8 - p) / (8 / 4) + d * count * 4
          = 4 * i + d * count * 4 := by
        have h1 : p + i * 8 - p = i * 8 := by omega
        rw [h1]
        norm_num
        omega
      have hstep : leafLoop m p d count (r + 1) i
          = if m.itemOk (p + i * 8)
            then (4 * i + d * count * 4) :: leafLoop m p d count r (i + 1)
            else leafLoop m p d count r (i + 1) := by
        show (if m.valid (p + i * m.entSize) = false then []
          else if m.itemOk (p + i * m.entSize)
            then ((p + i * m.entSize - p) / (m.entSize / 4) + d * count * 4)
              :: leafLoop m p d count r (i + 1)
            else leafLoop m p d count r (i + 1)) = _
        rw [hE, if_neg (by simp [hv]), hval]
      rw [hstep]
      have htw : List.takeWhile (fun j => m.valid (p + j * 8))
          (i :: List.range' (i + 1) r)
          = i :: List.takeWhile (fun j => m.valid (p + j * 8))
              (List.range' (i + 1) r) := by
        simp [List.takeWhile_cons, hv]
      rw [htw]
      simp only [List.filterMap_cons]
      cases hok : m.itemOk (p + i * 8) with
      | false => exact ih (i + 1)
      | true => exact congrArg (List.cons (4 * i + d * count * 4)) (ih (i + 1))

lemma nodeLoop_spec (m : HTMem) (recur : Nat → Nat → List Nat) (p : Nat)
    (hA : m.addrSize = 4) :
    ∀ (rem i d : Nat),
      nodeLoop m recur p rem i d
        = (((List.range' i rem).takeWhile (fun j => m.valid (p + j * 4))).map
            (fun j => recur (m.addrAt (p + j * 4)) (d + (j - i)))).flatten := by
  intro rem
  induction rem with
  | zero =>
    intro i d
    simp [nodeLoop]
  | succ r ih =>
    intro i d
    rw [List.range'_succ]
    cases hv : m.valid (p + i * 4) with
    | false =>
      have hstep : nodeLoop m recur p (r + 1) i d = [] := by
        show (if m.valid (p + i * m.addrSize) = false then []
          else recur (m.addrAt (p + i * m.addrSize)) d
            ++ nodeLoop m recur p r (i + 1) (d + 1)) = []
        rw [hA, if_pos hv]
      rw [hstep]
      have htw : List.takeWhile (fun j => m.valid (p + j * 4))
          (i :: List.range' (i + 1) r) = [] := by
        simp [List.takeWhile_cons, hv]
      rw [htw]
      simp
    | true =>
      have hstep : nodeLoop m recur p (r + 1) i d
          = recur (m.addrAt (p + i * 4)) d
            ++ nodeLoop m recur p r (i + 1) (d + 1) := by
        show (if m.valid (p + i * m.addrSize) = false then []
          else recur (m.addrAt (p + i * m.addrSize)) d
            ++ nodeLoop m recur p r (i + 1) (d + 1)) = _
        rw [hA, if_neg (by simp [hv])]
      rw [hstep]
      have htw : List.takeWhile (fun j => m.valid (p + j * 4))
          (i :: List.range' (i + 1) r)
          = i :: List.takeWhile (fun j => m.valid (p + j * 4))
              (List.range' (i + 1) r) := by
        simp [List.takeWhile_cons, hv]
      rw [htw]
      simp only [List.map_cons, List.flatten_cons, Nat.sub_self, Nat.add_zero]
      rw [ih (i + 1) (d + 1)]
      congr 1
      refine congrArg List.flatten (List.map_congr_left ?_)
      intro j hj
      have hji : i + 1 ≤ j :=
        (List.mem_range'_1.mp ((List.takeWhile_prefix _).subset hj)).1
      congr 1
      omega

/-- C5: `_HANDLE_TABLE.handles` unpacks the level count from the low 3 bits
of `TableCode` and walks from the masked base.  A level-0 page enumerates
handle values `4 * i + depth * 512 * 4` (position + depth x page_capacity x
multiplier, multiplier 4, 512 entries of 8 bytes per 0x1000 page) exactly for
the leaf entries in the valid prefix of the page that pass the item filter —
the first invalid entry stops the current page only.  A level > 0 page walks
its valid prefix of pointers, each pointed-to page enumerated independently
at depth `d + i`, so one page stopping early does not abort its siblings. -/
theorem handle_table_walk (m : HTMem) :
    (∀ (ptr lvl : Nat), ptr % 8 = 0 → lvl < 8 →
      handles m (ptr + lvl) = make_handle_array m lvl ptr 0) ∧
    (∀ (p d : Nat), m.entSize = 8 → m.valid p = true →
      make_handle_array m 0 p d
        = ((List.range 512).takeWhile (fun i => m.valid (p + i * 8))).filterMap
            (fun i =>
              if m.itemOk (p + i * 8) then some (4 * i + d * 512 * 4) else none)) ∧
    (∀ (p d lvl : Nat), m.addrSize = 4 → m.valid p = true →
      make_handle_array m (lvl + 1) p d
        = (((List.range 1024).takeWhile (fun i => m.valid (p + i * 4))).map
            (fun i => make_handle_array m lvl (m.addrAt (p + i * 4)) (d + i))).flatten) := by
  refine ⟨?_, ?_, ?_⟩
  · intro ptr lvl hp hl
    obtain ⟨k, rfl⟩ : ∃ k, ptr = 8 * k := ⟨ptr / 8, by omega⟩
    unfold handles
    rw [land_seven k lvl hl, ldiff_seven k lvl hl]
  · intro p d hE hv
    have hcount : (0x1000 : Nat) / m.entSize = 512 := by
      rw [hE]
    have hstep : make_handle_array m 0 p d = leafLoop m p d 512 512 0 := by
      show (if m.valid p then
          leafLoop m p d (0x1000 / m.entSize) (0x1000 / m.entSize) 0 else []) = _
      rw [if_pos hv, hcount]
    rw [hstep, leafLoop_spec m p d 512 hE 512 0, List.range_eq_range']
  · intro p d lvl hA hv
    have hcount : (0x1000 : Nat) / m.addrSize = 1024 := by
      rw [hA]
    have hstep : make_handle_array m (lvl + 1) p d
        = nodeLoop m (fun o dd => make_handle_array m lvl o dd) p 1024 0 d := by
      show (if m.valid p then
          nodeLoop m (fun o dd => make_handle_array m lvl o dd) p
            (0x1000 / m.addrSize) 0 d else []) = _
      rw [if_pos hv, hcount]
    rw [hstep, nodeLoop_spec m _ p hA 1024 0 d, List.range_eq_range']
    refine congrArg List.flatten (List.map_congr_left ?_)
    intro j _
    simp

/-- Concrete two-level handle table for the C5 witness: `TableCode`
0x2001 = base 0x2000 with level count 1.  The top page holds pointers to leaf
pages 0x3000 and 0x4000 and its third entry is invalid.  Page 0x3000 has
entries 0..2 valid (entry 3 invalid) with the item filter rejecting entry 1;
page 0x4000 has entries 0..1 valid (entry 2 invalid), both items accepted. -/
def htW : HTMem :=
  ⟨4, 8,
   fun o => decide (o = 0x2000 ∨ o = 0x2004 ∨
     (0x3000 ≤ o ∧ o < 0x3000 + 24) ∨ (0x4000 ≤ o ∧ o < 0x4000 + 16)),
   fun o => if o = 0x2000 then 0x3000 else if o = 0x2004 then 0x4000 else 0,
   fun o => decide (o = 0x3000 ∨ o = 0x3010 ∨ o = 0x4000 ∨ o = 0x4008)⟩

theorem handle_table_walk_witness :
    handles htW 0x2001 = [0, 8, 2048, 2052] := by
  have h := (handle_table_walk htW).1 0x2000 1 (by norm_num) (by norm_num)
  rw [h]
  decide

/-! ## Theorems for claim C4 -/

lemma travAux_succ (m : VadMem) (fuel : Nat) (off : Int) (vis : Finset Int) :
    travAux m (fuel + 1) off vis =
      match findNode m.nodes off with
      | none => ([], vis)
      | some nd =>
        if off ∈ vis then ([], vis)
        else
          ((off :: ((travAux m fuel nd.left (insert off vis)).1
              ++ (travAux m fuel nd.right
                    (travAux m fuel nd.left (insert off vis)).2).1)),
            (travAux m fuel nd.right
              (travAux m fuel nd.left (insert off vis)).2).2) := rfl

lemma findNode_mem (l : List (Int × VadNode)) (off : Int) (nd : VadNode)
    (h : findNode l off = some nd) : off ∈ (l.map Prod.fst).toFinset := by
  induction l with
  | nil => cases h
  | cons p rest ih =>
    by_cases hp : p.1 = off
    · simp [← hp]
    · have h' : findNode rest off = some nd := by
        simpa [findNode, hp] using h
      simp [ih h']

lemma findNode_mem_dom (m : VadMem) (off : Int) (nd : VadNode)
    (h : findNode m.nodes off = some nd) : off ∈ vadDom m :=
  findNode_mem m.nodes off nd h

lemma travAux_spec (m : VadMem) :
    ∀ (fuel : Nat) (off : Int) (vis : Finset Int),
      (travAux m fuel off vis).2 = vis ∪ (travAux m fuel off vis).1.toFinset ∧
      (travAux m fuel off vis).1.Nodup ∧
      ∀ x ∈ (travAux m fuel off vis).1, x ∉ vis := by
  intro fuel
  induction fuel with
  | zero =>
    intro off vis
    simp [travAux]
  | succ f ih =>
    intro off vis
    rw [travAux_succ]
    cases hf : findNode m.nodes off with
    | none => simp
    | some nd =>
      by_cases hv : off ∈ vis
      · simp [hv]
      · simp only [if_neg hv]
        obtain ⟨hp2, hpnd, hpvis⟩ := ih nd.left (insert off vis)
        obtain ⟨hq2, hqnd, hqvis⟩ :=
          ih nd.right (travAux m f nd.left (insert off vis)).2
        have hvisp : vis ⊆ (travAux m f nd.left (insert off vis)).2 := by
          rw [hp2]
          exact subset_trans (Finset.subset_insert off vis) Finset.subset_union_left
        have hoffp : off ∈ (travAux m f nd.left (insert off vis)).2 := by
          rw [hp2]
          exact Finset.mem_union.mpr (Or.inl (Finset.mem_insert_self off vis))
        refine ⟨?_, ?_, ?_⟩
        · show (travAux m f nd.right (travAux m f nd.left (insert off vis)).2).2 = _
          rw [hq2, hp2]
          ext x
          simp only [Finset.mem_union, Finset.mem_insert, List.toFinset_cons,
            List.toFinset_append, List.mem_toFinset]
          tauto
        · show (off :: ((travAux m f nd.left (insert off vis)).1
              ++ (travAux m f nd.right (travAux m f nd.left (insert off vis)).2).1)).Nodup
          rw [List.nodup_cons, List.nodup_append]
          refine ⟨?_, hpnd, hqnd, ?_⟩
          · intro hoff
            rcases List.mem_append.mp hoff with h | h
            · exact hpvis off h (Finset.mem_insert_self off vis)
            · exact hqvis off h hoffp
          · intro x hx1 hx2
            apply hqvis x hx2
            rw [hp2]
            exact Finset.mem_union.mpr (Or.inr (List.mem_toFinset.mpr hx1))
        · show ∀ x ∈ (off :: ((travAux m f nd.left (insert off vis)).1
              ++ (travAux m f nd.right (travAux m f nd.left (insert off vis)).2).1)),
            x ∉ vis
          intro x hx
          rcases List.mem_cons.mp hx with rfl | hx
          · exact hv
          · rcases List.mem_append.mp hx with h | h
            · intro hxv
              exact hpvis x h (Finset.mem_insert_of_mem hxv)
            · intro hxv
              exact hqvis x h (hvisp hxv)

lemma travAux_stable (m : VadMem) :
    ∀ (n : Nat) (off : Int) (vis : Finset Int) (f₁ f₂ : Nat),
      (vadDom m \ vis).card = n → n < f₁ → n < f₂ →
      travAux m f₁ off vis = travAux m f₂ off vis := by
  intro n
  induction n using Nat.strong_induction_on with
  | _ n ihn =>
    intro off vis f₁ f₂ hn h1 h2
    obtain ⟨g₁, rfl⟩ : ∃ g, f₁ = g + 1 := ⟨f₁ - 1, by omega⟩
    obtain ⟨g₂, rfl⟩ : ∃ g, f₂ = g + 1 := ⟨f₂ - 1, by omega⟩
    rw [travAux_succ, travAux_succ]
    cases hf : findNode m.nodes off with
    | none => rfl
    | some nd =>
      by_cases hv : off ∈ vis
      · simp [hv]
      · simp only [if_neg hv]
        have hoffdom : off ∈ vadDom m := findNode_mem_dom m off nd hf
        have hsub1 : vadDom m \ insert off vis ⊆ vadDom m \ vis :=
          Finset.sdiff_subset_sdiff (subset_refl _) (Finset.subset_insert off vis)
        have hlt : (vadDom m \ insert off vis).card < n := by
          rw [← hn]
          apply Finset.card_lt_card
          rw [Finset.ssubset_iff_of_subset hsub1]
          exact ⟨off, Finset.mem_sdiff.mpr ⟨hoffdom, hv⟩,
            fun hc => (Finset.mem_sdiff.mp hc).2 (Finset.mem_insert_self off vis)⟩
        have hL := ihn _ hlt nd.left (insert off vis) g₁ g₂ rfl (by omega) (by omega)
        rw [hL]
        have hsub2 : insert off vis ⊆ (travAux m g₂ nd.left (insert off vis)).2 := by
          rw [(travAux_spec m g₂ nd.left (insert off vis)).1]
          exact Finset.subset_union_left
        have hlt2 : (vadDom m \ (travAux m g₂ nd.left (insert off vis)).2).card < n := by
          calc (vadDom m \ (travAux m g₂ nd.left (insert off vis)).2).card
              ≤ (vadDom m \ insert off vis).card :=
                Finset.card_le_card (Finset.sdiff_subset_sdiff (subset_refl _) hsub2)
            _ < n := hlt
        have hR := ihn _ hlt2 nd.right (travAux m g₂ nd.left (insert off vis)).2
          g₁ g₂ rfl (by omega) (by omega)
        rw [hR]

/-- Concrete tree for the C4 counterexample: root at 100 with left child 200,
whose own left child points back at the root (a back-edge aimed at an
ancestor); all other pointers are invalid. -/
def vadCycle : VadMem :=
  ⟨[(100, ⟨200, 0⟩), (200, ⟨100, 0⟩)]⟩

/-- C4 counterexample: on the two-node tree whose second node's child points
back at the root, `traverse` yields the root twice — the output is
[100, 200, 100] — refuting "yields each node at most once". -/
theorem traverse_back_edge_root_twice :
    traverse vadCycle 10 100 = [100, 200, 100] ∧
    List.count 100 (traverse vadCycle 10 100) = 2 := by
  decide

/-- C4 amended: on every VAD tree, including trees with back-edges,
`traverse` yields each node other than the root at most once and the root
itself at most twice (a back-edge aimed at the root re-yields it once,
because the shared visited set only records a node when an ancestor's loop
adds it after a yield and the top-level node has no ancestor), and the walk
terminates: the output is stable once the fuel exceeds the number of
constructible nodes. -/
theorem traverse_cycle_tolerant (m : VadMem) (root : Int) :
    (∀ (fuel : Nat) (x : Int), x ≠ root →
      List.count x (traverse m fuel root) ≤ 1) ∧
    (∀ fuel : Nat, List.count root (traverse m fuel root) ≤ 2) ∧
    (∀ f₁ f₂ : Nat, (vadDom m).card < f₁ → (vadDom m).card < f₂ →
      traverse m f₁ root = traverse m f₂ root) := by
  have key : ∀ fuel : Nat, ∀ nd, findNode m.nodes root = some nd →
      ((travAux m fuel nd.left ∅).1
        ++ (travAux m fuel nd.right (travAux m fuel nd.left ∅).2).1).Nodup := by
    intro fuel nd _
    obtain ⟨hp2, hpnd, _⟩ := travAux_spec m fuel nd.left ∅
    obtain ⟨_, hqnd, hqvis⟩ := travAux_spec m fuel nd.right (travAux m fuel nd.left ∅).2
    rw [List.nodup_append]
    refine ⟨hpnd, hqnd, ?_⟩
    intro x hx1 hx2
    apply hqvis x hx2
    rw [hp2]
    exact Finset.mem_union.mpr (Or.inr (List.mem_toFinset.mpr hx1))
  refine ⟨?_, ?_, ?_⟩
  · intro fuel x hx
    unfold traverse
    cases hf : findNode m.nodes root with
    | none => simp
    | some nd =>
      simp only []
      rw [List.count_cons_of_ne hx]
      exact List.nodup_iff_count_le_one.mp (key fuel nd hf) x
  · intro fuel
    unfold traverse
    cases hf : findNode m.nodes root with
    | none => simp
    | some nd =>
      simp only []
      rw [List.count_cons_self]
      have := List.nodup_iff_count_le_one.mp (key fuel nd hf) root
      omega
  · intro f₁ f₂ h1 h2
    unfold traverse
    cases hf : findNode m.nodes root with
    | none => rfl
    | some nd =>
      have hL := travAux_stable m (vadDom m \ ∅).card nd.left ∅ f₁ f₂ rfl
        (by rw [Finset.sdiff_empty]; omega) (by rw [Finset.sdiff_empty]; omega)
      show root :: ((travAux m f₁ nd.left ∅).1
            ++ (travAux m f₁ nd.right (travAux m f₁ nd.left ∅).2).1)
          = root :: ((travAux m f₂ nd.left ∅).1
            ++ (travAux m f₂ nd.right (travAux m f₂ nd.left ∅).2).1)
      rw [hL]
      have hsub : vadDom m \ (travAux m f₂ nd.left ∅).2 ⊆ vadDom m :=
        Finset.sdiff_subset
      have hR := travAux_stable m (vadDom m \ (travAux m f₂ nd.left ∅).2).card
        nd.right (travAux m f₂ nd.left ∅).2 f₁ f₂ rfl
        (by have := Finset.card_le_card hsub; omega)
        (by have := Finset.card_le_card hsub; omega)
      rw [hR]

/-- Witness for C4 amended, applied to the concrete back-edge tree: the
non-root node is yielded once, the root at most twice, and the output is
already stable at fuel 3. -/
theorem traverse_cycle_tolerant_witness :
    List.count 200 (traverse vadCycle 10 100) ≤ 1 ∧
    List.count 100 (traverse vadCycle 10 100) ≤ 2 ∧
    traverse vadCycle 3 100 = traverse vadCycle 10 100 := by
  have h := traverse_cycle_tolerant vadCycle 100
  exact ⟨h.1 10 200 (by decide), h.2.1 10, h.2.2 3 10 (by decide) (by decide)⟩

/-! ## Theorem for claim C7 -/

/-- C7: the IA32 validator accepts (yields exactly `[true]`) when the
page-directory self-map check succeeds; otherwise it falls back to the
shared-page check, accepting exactly when `vtop(0xffdf0000)` equals
`vtop(0x7ffe0000)` and is not `None`, and yielding a final `false` only when
every check fails; a translation failure (`ASAssertionError`) in the first
check merely makes that check fail and moves on to the fallback. -/
theorem ia32_validator_checks (vm : IA32VM) :
    (∀ pd : Int, pdTarget vm = Except.ok pd →
      vm.vtop (pdeBase vm) = Except.ok (some pd) →
      generate_suggestions vm = Except.ok [true]) ∧
    (∀ a b : Option Int, moyixCheck vm = false →
      vm.vtop 0xffdf0000 = Except.ok a →
      vm.vtop 0x7ffe0000 = Except.ok b →
      generate_suggestions vm
        = Except.ok [if a = b ∧ a ≠ none then true else false]) ∧
    (vm.vtop (pdeBase vm) = Except.error () → moyixCheck vm = false) := by
  refine ⟨?_, ?_, ?_⟩
  · intro pd hpd hv
    have hm : moyixCheck vm = true := by
      unfold moyixCheck
      rw [hpd, hv]
      simp
    unfold generate_suggestions
    rw [hm]
    simp
  · intro a b hm ha hb
    unfold generate_suggestions
    rw [hm]
    simp only [Bool.false_eq_true, if_false]
    rw [ha, hb]
    by_cases hab : a = b
    · subst hab
      by_cases hn : a = none
      · subst hn
        simp
      · simp [hn]
    · simp [hab]
  · intro hv
    unfold moyixCheck
    cases hpd : pdTarget vm with
    | error e => rfl
    | ok pd =>
      rw [hv]

/-- Witness for C7 at concrete candidate spaces: one passing the self-map
check, one passing only the shared-page check, and one failing both. -/
def vmSelfMap : IA32VM :=
  ⟨false, 0x39000, Except.error (),
    fun addr => if addr = 0xc0300000 then Except.ok (some 0x39000) else Except.error ()⟩

def vmSharedOnly : IA32VM :=
  ⟨false, 0x39000, Except.error (),
    fun addr =>
      if addr = 0xc0300000 then Except.error ()
      else if addr = 0xffdf0000 then Except.ok (some 0x7000)
      else if addr = 0x7ffe0000 then Except.ok (some 0x7000)
      else Except.ok none⟩

def vmInvalid : IA32VM :=
  ⟨false, 0x39000, Except.error (), fun _ => Except.ok none⟩

theorem ia32_validator_checks_witness :
    generate_suggestions vmSelfMap = Except.ok [true] ∧
    generate_suggestions vmSharedOnly = Except.ok [true] ∧
    generate_suggestions vmInvalid = Except.ok [false] ∧
    moyixCheck vmSharedOnly = false := by
  have hsoft : moyixCheck vmSharedOnly = false :=
    (ia32_validator_checks vmSharedOnly).2.2 rfl
  refine ⟨?_, ?_, ?_, hsoft⟩
  · exact (ia32_validator_checks vmSelfMap).1 0x39000 rfl rfl
  · have h := (ia32_validator_checks vmSharedOnly).2.1 (some 0x7000) (some 0x7000)
      hsoft rfl rfl
    simpa using h
  · have hm : moyixCheck vmInvalid = false := by decide
    have h := (ia32_validator_checks vmInvalid).2.1 none none hm rfl rfl
    simpa using h

end Volatility
